import Mathlib

/-!
Verification of the dtail turbo-mode comparison scripts
(`analyze_turbo_profiles.py` and `compare_turbo_benchmarks.py`).

Text is modelled as `List Char`; Python floats are modelled as exact
rationals `ℚ`; Python exceptions are modelled with `Except String`.
All definitions are direct translations of the Python source.
-/

set_option maxRecDepth 4000

namespace DTail

/-- Python whitespace characters (the ASCII set recognised by `str.split()`,
`str.strip()` and the regex class `\s`). -/
def isPySpace (c : Char) : Bool :=
  c = ' ' || c = '\t' || c = '\n' || c = '\r' || c = '\x0b' || c = '\x0c'

/-- Split a character list on a separator character, keeping empty pieces —
the semantics of Python `str.split(sep)` for a one-character `sep`. -/
def splitOnChar (sep : Char) : List Char → List (List Char)
  | [] => [[]]
  | c :: cs =>
    if c = sep then [] :: splitOnChar sep cs
    else
      match splitOnChar sep cs with
      | [] => [[c]]
      | t :: ts => (c :: t) :: ts

/-- `output.split('\n')` from the Python source. -/
def splitNl (l : List Char) : List (List Char) := splitOnChar '\n' l

theorem dropWhile_length_le {α : Type} (p : α → Bool) (l : List α) :
    (l.dropWhile p).length ≤ l.length := by
  induction l with
  | nil => simp [List.dropWhile]
  | cons c cs ih =>
    by_cases h : p c
    · simp [List.dropWhile, h]; omega
    · simp [List.dropWhile, h]

/-- Single pass of `str.split()`: the accumulator holds the current token,
reversed; a whitespace character flushes it. -/
def pySplitGo : List Char → List Char → List (List Char)
  | [], acc => if acc.isEmpty then [] else [acc.reverse]
  | c :: cs, acc =>
    if isPySpace c then
      if acc.isEmpty then pySplitGo cs [] else acc.reverse :: pySplitGo cs []
    else pySplitGo cs (c :: acc)

/-- Python `str.split()` with no argument: split on runs of whitespace,
discarding empty tokens. -/
def pySplit (l : List Char) : List (List Char) := pySplitGo l []

/-- Substring containment: `needle in hay` for Python strings. -/
def containsSub (hay needle : List Char) : Bool :=
  if needle.isPrefixOf hay then true
  else
    match hay with
    | [] => false
    | _ :: t => containsSub t needle

/-- Truthiness of Python `line.strip()`: true iff the line has some
non-whitespace character. -/
def pyStripTruthy (l : List Char) : Bool := l.any (fun c => !isPySpace c)

/-- Python `' '.join(parts)`. -/
def joinSpace (parts : List (List Char)) : List Char :=
  List.intercalate [' '] parts

/-- Python `s.rstrip('%')`: remove all trailing `%` characters. -/
def rstripPct (l : List Char) : List Char :=
  (l.reverse.dropWhile (fun c => c = '%')).reverse

/-- One entry of the tuple list built by `extract_top_functions`:
`(func_name, flat_pct, flat_time)`.  All three fields are kept as the raw
source tokens (the Python code stores them as strings). -/
structure FuncRec where
  name : List Char
  flatPct : List Char
  flatTime : List Char
deriving DecidableEq, Repr

/-- The literal header marker `'flat  flat%'` searched for by
`extract_top_functions`. -/
def flatMarker : List Char := "flat  flat%".data

/-- Does the line contain the header marker? (`'flat  flat%' in line`). -/
def hasMarker (line : List Char) : Bool := containsSub line flatMarker

/-- The record built from one well-formed data line: `parts[0]` is
`flat_time`, `parts[1]` is `flat_pct`, `' '.join(parts[4:])` is the name. -/
def recOfLine (line : List Char) : FuncRec :=
  ⟨joinSpace ((pySplit line).drop 4), (pySplit line).getD 1 [], (pySplit line).getD 0 []⟩

/-- The line loop of `extract_top_functions` (analyze_turbo_profiles.py
lines 23–36): the boolean is the `in_data` flag. -/
def extractLoop : Bool → List (List Char) → List FuncRec
  | _, [] => []
  | inData, line :: rest =>
    if hasMarker line then extractLoop true rest
    else if inData && pyStripTruthy line then
      if 5 ≤ (pySplit line).length then recOfLine line :: extractLoop inData rest
      else extractLoop inData rest
    else extractLoop inData rest

/-- `extract_top_functions` applied to the text returned by the profiler
(the subprocess call is I/O glue outside the extraction logic; the `n`
argument only parameterises that call).  Splits the output on newlines and
runs the extraction loop with `in_data = False`. -/
def extract_top_functions (output : List Char) : List FuncRec :=
  extractLoop false (splitNl output)

/-- `calculate_improvement` from compare_turbo_benchmarks.py lines 34–37,
over exact rationals. -/
def calculate_improvement (noTurbo turbo : ℚ) : ℚ :=
  if noTurbo = 0 then 0 else ((noTurbo - turbo) / noTurbo) * 100

/-- The throughput percentage as displayed by `main` (lines 74–75, likewise
79 and 83): `calculate_improvement` is called with the turbo (variant) value
as first argument and the no-turbo (baseline) value as second, and the
result is negated before printing. -/
def displayedThroughputImprovement (noTurboVal turboVal : ℚ) : ℚ :=
  -(calculate_improvement turboVal noTurboVal)

/-! ### Python `float()` on decimal strings -/

/-- Digit run to a natural number. -/
def digitsToNat (l : List Char) : ℕ :=
  l.foldl (fun n c => 10 * n + (c.toNat - '0'.toNat)) 0

/-- Exponent digits with an already extracted sign; the digits must be
nonempty and must exhaust the input. -/
def parseExpDigits (m : ℚ) (sgn : ℤ) (r : List Char) : Option ℚ :=
  let ds := r.takeWhile Char.isDigit
  if ds.isEmpty then none
  else if (r.dropWhile Char.isDigit).isEmpty then
    some (m * (10 : ℚ) ^ (sgn * (digitsToNat ds : ℤ)))
  else none

/-- Exponent part after the `e`/`E`: optional sign then digits. -/
def parseExpSigned (m : ℚ) : List Char → Option ℚ
  | '+' :: r => parseExpDigits m 1 r
  | '-' :: r => parseExpDigits m (-1) r
  | r => parseExpDigits m 1 r

/-- Optional exponent suffix: empty, or `e`/`E` followed by a signed digit
run ending the string. -/
def parseExpPart (m : ℚ) : List Char → Option ℚ
  | [] => some m
  | 'e' :: r => parseExpSigned m r
  | 'E' :: r => parseExpSigned m r
  | _ => none

/-- The unsigned body of a float literal: `digits`, `digits.`, `.digits` or
`digits.digits`, each with an optional exponent. -/
def pyFloatCore (t : List Char) : Option ℚ :=
  let ds := t.takeWhile Char.isDigit
  let rest := t.dropWhile Char.isDigit
  match rest with
  | '.' :: r2 =>
    let fs := r2.takeWhile Char.isDigit
    let r3 := r2.dropWhile Char.isDigit
    if ds.isEmpty && fs.isEmpty then none
    else parseExpPart ((digitsToNat ds : ℚ) + (digitsToNat fs : ℚ) / (10 : ℚ) ^ fs.length) r3
  | [] => if ds.isEmpty then none else some (digitsToNat ds : ℚ)
  | _ => if ds.isEmpty then none else parseExpPart (digitsToNat ds : ℚ) rest

/-- Python `float(s)` on a string, as an exact rational: strips surrounding
whitespace, then parses an optionally signed decimal literal with optional
exponent.  `none` models a raised `ValueError`.  (The `inf`/`nan`/underscore
literal forms accepted by Python are not representable as rationals and are
never produced by the profiler output this program parses.) -/
def pyFloat (s : List Char) : Option ℚ :=
  let t := ((s.dropWhile isPySpace).reverse.dropWhile isPySpace).reverse
  match t with
  | '+' :: r => pyFloatCore r
  | '-' :: r => (pyFloatCore r).map Neg.neg
  | r => pyFloatCore r

/-- `float()` call in the error monad: `none` becomes a `ValueError`. -/
def pyFloatE (s : List Char) : Except String ℚ :=
  match pyFloat s with
  | some q => Except.ok q
  | none => Except.error "ValueError"

/-! ### Python dictionaries as association lists -/

/-- `d[k] = v` on a Python dict: overwrite in place if the key exists
(keeping its position), otherwise append at the end. -/
def dictInsert {V : Type} (k : List Char) (v : V) :
    List (List Char × V) → List (List Char × V)
  | [] => [(k, v)]
  | (k1, v1) :: m => if k1 = k then (k, v) :: m else (k1, v1) :: dictInsert k v m

/-- Dictionary lookup. -/
def alookup {V : Type} (k : List Char) : List (List Char × V) → Option V
  | [] => none
  | (k1, v) :: m => if k1 = k then some v else alookup k m

/-! ### The profile comparison pipeline (`compare_profiles`, lines 92–121) -/

/-- The zero-percent placeholder `'0%'`. -/
def zeroPct : List Char := "0%".data

/-- A merged entry value: `(noturbo percent string, turbo percent string)`. -/
abbrev PctPair := List Char × List Char

/-- First loop of the merge (lines 94–95): every no-turbo function gets its
percent on the left and `'0%'` on the right. -/
def funcMapStep1 (m : List (List Char × PctPair)) (r : FuncRec) :
    List (List Char × PctPair) :=
  dictInsert r.name (r.flatPct, zeroPct) m

/-- Second loop of the merge (lines 97–101): a turbo function updates the
right side if the key exists, otherwise inserts with `'0%'` on the left. -/
def funcMapStep2 (m : List (List Char × PctPair)) (r : FuncRec) :
    List (List Char × PctPair) :=
  match alookup r.name m with
  | some p => dictInsert r.name (p.1, r.flatPct) m
  | none => dictInsert r.name (zeroPct, r.flatPct) m

/-- The merged `func_map` built by `compare_profiles`. -/
def buildFuncMap (nt tb : List FuncRec) : List (List Char × PctPair) :=
  tb.foldl funcMapStep2 (nt.foldl funcMapStep1 [])

/-- The sort key of line 109: `float(v.rstrip('%')) if v != '0%' else 0`,
in the error monad since `float()` can raise. -/
def sortKeyE (v : List Char) : Except String ℚ :=
  if v = zeroPct then Except.ok 0 else pyFloatE (rstripPct v)

/-- A merged entry paired with its computed sort key. -/
abbrev PctEntry := (List Char × PctPair) × ℚ

/-- Stable descending insertion by key: the element goes before the first
entry whose key is ≤ its own, which reproduces the output of Python's
stable `sorted(..., reverse=True)`. -/
def insertDesc (x : PctEntry) : List PctEntry → List PctEntry
  | [] => [x]
  | y :: ys => if y.2 ≤ x.2 then x :: y :: ys else y :: insertDesc x ys

/-- Stable descending sort by key (line 108–110). -/
def sortDesc (l : List PctEntry) : List PctEntry := l.foldr insertDesc []

/-- Name truncation of lines 118–119. -/
def truncateName (f : List Char) : List Char :=
  if 48 < f.length then f.take 45 ++ "...".data else f

/-- One printed comparison row (lines 112–121). -/
structure ProfRow where
  displayName : List Char
  noturbo : List Char
  turbo : List Char
  change : ℚ
deriving DecidableEq, Repr

/-- Row computation of lines 113–121: both percent strings go through
`float(·.rstrip('%'))`, either of which can raise. -/
def rowOf (e : List Char × PctPair) : Except String ProfRow := do
  let np ← pyFloatE (rstripPct e.2.1)
  let tp ← pyFloatE (rstripPct e.2.2)
  pure ⟨truncateName e.1, e.2.1, e.2.2, tp - np⟩

/-- The merge–sort–report computation of `compare_profiles` for one tool
(lines 92–121): build the merged map, compute every sort key (Python's
`sorted` evaluates the key function on every element), sort descending,
take the top 10 and compute each displayed row. -/
def compareRows (ntFuncs tbFuncs : List FuncRec) : Except String (List ProfRow) := do
  let keyed ← (buildFuncMap ntFuncs tbFuncs).mapM (fun e => do
    let kv ← sortKeyE e.2.1
    pure ((e, kv) : PctEntry))
  ((sortDesc keyed).take 10).mapM (fun ek => rowOf ek.1)

/-- The whole extraction–merge–report pipeline over the two profiler output
texts. -/
def compare_profiles_rows (ntText tbText : List Char) : Except String (List ProfRow) :=
  compareRows (extract_top_functions ntText) (extract_top_functions tbText)

/-! ### Turbo-specific function detection (lines 124–133) -/

/-- Python `str.lower()` on our ASCII text. -/
def toLowerL (l : List Char) : List Char := l.map Char.toLower

/-- The condition of line 128: three substring checks on the lowered name
and one case-sensitive check (`'LineProcessor' in func`). -/
def isTurboSpecificName (f : List Char) : Bool :=
  containsSub (toLowerL f) "turbo".data || containsSub (toLowerL f) "optimized".data ||
    containsSub (toLowerL f) "channelless".data || containsSub f "LineProcessor".data

/-- The records printed in the turbo-specific section: the first 15 turbo
records whose name satisfies the marker condition. -/
def turboSpecificListed (tbFuncs : List FuncRec) : List FuncRec :=
  (tbFuncs.take 15).filter (fun r => isTurboSpecificName r.name)

/-- Lines 126–133: the "none found" statement is emitted exactly when no
considered record matched. -/
def noneFoundEmitted (tbFuncs : List FuncRec) : Bool :=
  (turboSpecificListed tbFuncs).isEmpty

/-- Modelled from the spec: the claim's matching rule, stated from the
spec's words for comparison with the implementation — the name contains one
of the four fixed substring markers under case-insensitive matching. -/
def specMarkerMatchCI (f : List Char) : Bool :=
  ["turbo", "optimized", "channelless", "LineProcessor"].any
    (fun m => containsSub (toLowerL f) (toLowerL m.data))

/-! ### Benchmark records (`compare_turbo_benchmarks.py`) -/

/-- One parsed benchmark record (lines 24–30).  The three optional metrics
are `None` when the corresponding regex group did not participate. -/
structure BenchRec where
  nsPerOp : ℚ
  mbPerSec : ℚ
  hitRate : Option ℚ
  linesPerSec : Option ℚ
  recordsPerSec : Option ℚ
deriving DecidableEq, Repr

/-- Python truthiness of a float-or-None value: `None` and `0.0` are falsy. -/
def pyTruthy : Option ℚ → Bool
  | none => false
  | some x => x != 0

/-- `calculate_improvement` applied to float-or-None operands, as Python
executes it: `None == 0` is `False`, and arithmetic on `None` raises a
`TypeError`. -/
def pyCalcImprovementOpt (noTurbo turbo : Option ℚ) : Except String ℚ :=
  if noTurbo = some 0 then Except.ok 0
  else
    match noTurbo, turbo with
    | some a, some b => Except.ok (((a - b) / a) * 100)
    | _, _ => Except.error "TypeError"

/-- Lines 77–78: the lines/sec metric is attempted iff the *no-turbo*
record's field is truthy, and then computed from the turbo record's field
(first operand) and the no-turbo field (second operand). -/
def linesMetricStep (noTurbo turbo : BenchRec) : Option (Except String ℚ) :=
  if pyTruthy noTurbo.linesPerSec then
    some (pyCalcImprovementOpt turbo.linesPerSec noTurbo.linesPerSec)
  else none

/-- Lines 81–82: same for records/sec. -/
def recordsMetricStep (noTurbo turbo : BenchRec) : Option (Except String ℚ) :=
  if pyTruthy noTurbo.recordsPerSec then
    some (pyCalcImprovementOpt turbo.recordsPerSec noTurbo.recordsPerSec)
  else none

/-! ### The benchmark regex (line 11) as a matcher

The pattern is
`Benchmark(\w+)/(\w+)/([^-]+)-\d+\s+\d+\s+([\d.]+) ns/op\s+([\d.]+) MB/sec`
followed by three optional `(?:\s+([\d.]+) <unit>)?` groups.  Every repeated
character class in it is disjoint from the character that must follow it
(`\w` vs `/`, `[^-]` vs `-`, `\d` vs `\s`, `\s` vs `[\d.]`, `[\d.]` vs the
space of a unit literal), so greedy maximal munch without backtracking is
exactly Python's backtracking semantics for this pattern. -/

/-- The non-ASCII word characters of the Latin-1 Supplement block under
Python's Unicode `\w` (alphanumeric per the Unicode database): the
characters ª ² ³ µ ¹ º ¼ ½ ¾ and the Latin-1 letters, i.e. U+00C0–U+00FF
without the two operators × (U+00D7) and ÷ (U+00F7). -/
def wordCharLatin1 (n : ℕ) : Bool :=
  n = 0xAA || n = 0xB2 || n = 0xB3 || n = 0xB5 || n = 0xB9 || n = 0xBA ||
    n = 0xBC || n = 0xBD || n = 0xBE ||
    (0xC0 ≤ n && n ≤ 0xD6) || (0xD8 ≤ n && n ≤ 0xF6) || (0xF8 ≤ n && n ≤ 0xFF)

/-- The regex class `\w` of the pattern.  The pattern is compiled on a
`str` without `re.ASCII`, so `\w` has Unicode semantics: a character
matches iff it is alphanumeric per the Unicode database or an underscore.
On ASCII this is exactly `[A-Za-z0-9_]`; this embedding also carries the
Latin-1 Supplement block exactly (see `wordCharLatin1`).  Characters above
U+00FF are not classified here, so theorems about `matchAt` confine the
relevant segments to this modelled fragment. -/
def wordChar (c : Char) : Bool :=
  c.isAlphanum || c = '_' || wordCharLatin1 c.toNat

/-- `[\d.]`. -/
def numDotChar (c : Char) : Bool := c.isDigit || c = '.'

/-- The literal `Benchmark` opening the pattern. -/
def benchLit : List Char := "Benchmark".data

/-- Match a literal, returning the rest of the input. -/
def litP (lit l : List Char) : Option (List Char) :=
  if lit.isPrefixOf l then some (l.drop lit.length) else none

/-- Match one-or-more characters of a class, maximal munch. -/
def plusP (p : Char → Bool) (l : List Char) : Option (List Char × List Char) :=
  if (l.takeWhile p).isEmpty then none else some (l.takeWhile p, l.dropWhile p)

/-- The raw captured groups of one regex match. -/
structure RawMatch where
  testType : List Char
  command : List Char
  params : List Char
  nsPerOp : List Char
  mbPerSec : List Char
  hitRate : Option (List Char)
  linesPerSec : Option (List Char)
  recordsPerSec : Option (List Char)
deriving DecidableEq, Repr

/-- One optional trailing metric `(?:\s+([\d.]+) <unit>)?`: on failure the
whole group is skipped and the input is left untouched. -/
def optMetric (unit l : List Char) : Option (List Char) × List Char :=
  match plusP isPySpace l with
  | none => (none, l)
  | some (_, r1) =>
    match plusP numDotChar r1 with
    | none => (none, l)
    | some (num, r2) =>
      match litP (' ' :: unit) r2 with
      | none => (none, l)
      | some r3 => (some num, r3)

/-- The identifier part of the pattern:
`Benchmark(\w+)/(\w+)/([^-]+)-`, returning the three captures and the rest
of the input. -/
def matchIdent (l : List Char) : Option ((List Char × List Char × List Char) × List Char) :=
  (litP benchLit l).bind fun r0 =>
  (plusP wordChar r0).bind fun g1 =>
  (litP ['/'] g1.2).bind fun r2 =>
  (plusP wordChar r2).bind fun g2 =>
  (litP ['/'] g2.2).bind fun r4 =>
  (plusP (fun c => c != '-') r4).bind fun g3 =>
  (litP ['-'] g3.2).bind fun r6 =>
  some ((g1.1, g2.1, g3.1), r6)

/-- The numeric part of the pattern:
`\d+\s+\d+\s+([\d.]+) ns/op\s+([\d.]+) MB/sec`, returning the two captures
and the rest of the input. -/
def matchNums (l : List Char) : Option ((List Char × List Char) × List Char) :=
  (plusP Char.isDigit l).bind fun g4 =>
  (plusP isPySpace g4.2).bind fun g5 =>
  (plusP Char.isDigit g5.2).bind fun g6 =>
  (plusP isPySpace g6.2).bind fun g7 =>
  (plusP numDotChar g7.2).bind fun g8 =>
  (litP " ns/op".data g8.2).bind fun r12 =>
  (plusP isPySpace r12).bind fun g9 =>
  (plusP numDotChar g9.2).bind fun g10 =>
  (litP " MB/sec".data g10.2).bind fun r15 =>
  some ((g8.1, g10.1), r15)

/-- Attempt a match of the benchmark pattern at the start of `l`; on success
return the captures and the rest of the input after the match. -/
def matchAt (l : List Char) : Option (RawMatch × List Char) :=
  (matchIdent l).bind fun a =>
  (matchNums a.2).bind fun b =>
  let m1 := optMetric "hit_rate_%".data b.2
  let m2 := optMetric "lines/sec".data m1.2
  let m3 := optMetric "records/sec".data m2.2
  some (⟨a.1.1, a.1.2.1, a.1.2.2, b.1.1, b.1.2, m1.1, m2.1, m3.1⟩, m3.2)

/-- `re.finditer` scan: try a match at each position, left to right,
continuing after each match (matches are non-overlapping).  The fuel equals
the input length, which suffices because a successful match consumes at
least the nine-character `Benchmark` literal. -/
def findAux : ℕ → List Char → List RawMatch
  | 0, _ => []
  | fuel + 1, l =>
    match matchAt l with
    | some (r, rest) => r :: findAux fuel rest
    | none =>
      match l with
      | [] => []
      | _ :: cs => findAux fuel cs

/-- All matches of the benchmark pattern in the content. -/
def findRecords (l : List Char) : List RawMatch := findAux l.length l

/-- `float(group) if group else None` for an optional capture. -/
def parseOptField : Option (List Char) → Except String (Option ℚ)
  | none => Except.ok none
  | some s => (pyFloatE s).map some

/-- Lines 14–30: convert one match's captures into the keyed record. -/
def buildBenchEntry (m : RawMatch) : Except String (List Char × BenchRec) := do
  let ns ← pyFloatE m.nsPerOp
  let mb ← pyFloatE m.mbPerSec
  let hr ← parseOptField m.hitRate
  let ls ← parseOptField m.linesPerSec
  let rs ← parseOptField m.recordsPerSec
  pure (m.testType ++ '/' :: m.command ++ '/' :: m.params, ⟨ns, mb, hr, ls, rs⟩)

/-- `parse_benchmark_results` applied to the file content: find all matches,
convert each, and build the results dict. -/
def parse_benchmark_results (content : List Char) :
    Except String (List (List Char × BenchRec)) := do
  let entries ← (findRecords content).mapM buildBenchEntry
  pure (entries.foldl (fun m e => dictInsert e.1 e.2 m) [])

/-! ### Benchmark comparison grouping and summary (`main`, lines 48–101) -/

/-- `key.split('/')[1]`. -/
def cmdOf (k : List Char) : List Char := (splitOnChar '/' k).getD 1 []

/-- `commands[command].append(key)`, creating the group if absent. -/
def appendGroup (c k : List Char) :
    List (List Char × List (List Char)) → List (List Char × List (List Char))
  | [] => [(c, [k])]
  | (c1, ks) :: rest =>
    if c1 = c then (c1, ks ++ [k]) :: rest else (c1, ks) :: appendGroup c k rest

/-- Lines 48–55: group the keys present in both dicts by command. -/
def commandGroups (nt tb : List (List Char × BenchRec)) :
    List (List Char × List (List Char)) :=
  (nt.map Prod.fst).foldl
    (fun cmds k => if k ∈ tb.map Prod.fst then appendGroup (cmdOf k) k cmds else cmds) []

/-- All keys that appear in some command group, i.e. that get compared
rows. -/
def groupRowKeys (nt tb : List (List Char × BenchRec)) : List (List Char) :=
  ((commandGroups nt tb).map Prod.snd).flatten

/-- Dict access `m[k]`; in `main` every access is guarded by a membership
check, so the default is never reached. -/
def getRec (m : List (List Char × BenchRec)) (k : List Char) : BenchRec :=
  (alookup k m).getD ⟨0, 0, none, none, none⟩

/-- Lines 91–95: the aggregate list of time improvements over the keys
present in both dicts. -/
def totalTimeImprovement (nt tb : List (List Char × BenchRec)) : List ℚ :=
  (nt.map Prod.fst).foldl
    (fun acc k =>
      if k ∈ tb.map Prod.fst then
        acc ++ [calculate_improvement (getRec nt k).nsPerOp (getRec tb k).nsPerOp]
      else acc) []

/-! ## Claim C4: the improvement formula -/

/-- C4: `calculate_improvement baseline variant` equals
`((baseline - variant) / baseline) * 100` when the baseline is nonzero and
`0` when it is zero; consequently `calculate_improvement x x = 0` and
`calculate_improvement x 0 = 100` for nonzero `x`, and
`calculate_improvement 0 y = 0` for positive `y`.  The function is total, so
no division fault can occur. -/
theorem calculate_improvement_spec (b v x y : ℚ) (hx : x ≠ 0) (hy : 0 < y) :
    calculate_improvement b v = (if b = 0 then 0 else ((b - v) / b) * 100) ∧
    calculate_improvement x x = 0 ∧
    calculate_improvement x 0 = 100 ∧
    calculate_improvement 0 y = 0 := by
  refine ⟨rfl, ?_, ?_, ?_⟩
  · simp [calculate_improvement, hx]
  · rw [calculate_improvement, if_neg hx]
    field_simp
  · simp [calculate_improvement]

/-- Witness for `calculate_improvement_spec` at concrete inputs. -/
theorem calculate_improvement_spec_witness :
    calculate_improvement 2 2 = 0 ∧ calculate_improvement 2 0 = 100 ∧
      calculate_improvement 0 3 = 0 :=
  ⟨(calculate_improvement_spec 1 1 2 3 (by norm_num) (by norm_num)).2.1,
   (calculate_improvement_spec 1 1 2 3 (by norm_num) (by norm_num)).2.2.1,
   (calculate_improvement_spec 1 1 2 3 (by norm_num) (by norm_num)).2.2.2⟩

/-! ## Claim C1: sign of the displayed throughput improvement -/

/-- C1 is violated by the code: at baseline 10 MB/sec and variant (turbo)
20 MB/sec — variant strictly greater, hence better — the displayed value
`-(calculate_improvement 20 10)` is `-50`, a negative number, although the
claim (and the program's own closing note) says a positive displayed value
means the variant is better.  This theorem evaluates the code at that
failing input. -/
theorem throughput_display_sign_bug :
    displayedThroughputImprovement 10 20 = -50 ∧ (10 : ℚ) < 20 := by
  constructor
  · norm_num [displayedThroughputImprovement, calculate_improvement]
  · norm_num

/-! ## Claim C9: presence check of optional benchmark metrics -/

/-- C9: the guard for the lines/sec (and records/sec) metric consults only
the baseline record and treats `0.0` as absent; when the baseline field is
`some v` with `v ≠ 0` but the variant field is `None`, the metric is
attempted and the improvement computation raises a `TypeError` instead of
skipping the metric. -/
theorem missing_variant_metric_raises (nt tb : BenchRec) (v : ℚ) (hv : v ≠ 0)
    (hnt : nt.linesPerSec = some v) (htb : tb.linesPerSec = none) :
    linesMetricStep nt tb = some (Except.error "TypeError") ∧
    (∀ nt1 tb1 : BenchRec, (linesMetricStep nt1 tb1).isSome = pyTruthy nt1.linesPerSec) ∧
    pyTruthy (some 0) = false ∧
    (∀ nt1 tb1 : BenchRec, ∀ w : ℚ, w ≠ 0 → nt1.recordsPerSec = some w →
      tb1.recordsPerSec = none →
      recordsMetricStep nt1 tb1 = some (Except.error "TypeError")) := by
  refine ⟨?_, ?_, by simp [pyTruthy], ?_⟩
  · simp [linesMetricStep, hnt, htb, pyTruthy, hv, pyCalcImprovementOpt]
  · intro nt1 tb1
    by_cases h : pyTruthy nt1.linesPerSec = true
    · simp [linesMetricStep, h]
    · simp only [Bool.not_eq_true] at h
      simp [linesMetricStep, h]
  · intro nt1 tb1 w hw h1 h2
    simp [recordsMetricStep, h1, h2, pyTruthy, hw, pyCalcImprovementOpt]

/-- Witness for `missing_variant_metric_raises` at concrete records. -/
theorem missing_variant_metric_raises_witness :
    linesMetricStep ⟨1, 1, none, some 5, none⟩ ⟨1, 1, none, none, none⟩ =
      some (Except.error "TypeError") :=
  (missing_variant_metric_raises ⟨1, 1, none, some 5, none⟩ ⟨1, 1, none, none, none⟩
    5 (by norm_num) rfl rfl).1

/-! ## Claim C3: the turbo-specific-functions section -/

/-- C3 as stated is false: the name `lineprocessor` contains the marker
`LineProcessor` under case-insensitive matching, so by the claim it should
be listed, yet the code's `'LineProcessor' in func` check is case-sensitive
and the record is not listed. -/
theorem turbo_marker_counterexample :
    specMarkerMatchCI "lineprocessor".data = true ∧
    turboSpecificListed [⟨"lineprocessor".data, "5%".data, "1s".data⟩] = [] := by
  constructor
  · decide
  · decide

/-- C3 amended: a record of the considered list (the first 15 variant
records) is listed iff its name contains `turbo`, `optimized` or
`channelless` case-insensitively, or contains `LineProcessor`
case-sensitively; and the "none found" statement is emitted iff no
considered record matches. -/
theorem turbo_specific_listing (tbFuncs : List FuncRec) (r : FuncRec) :
    (r ∈ turboSpecificListed tbFuncs ↔
      r ∈ tbFuncs.take 15 ∧ isTurboSpecificName r.name = true) ∧
    (noneFoundEmitted tbFuncs = true ↔
      ∀ s ∈ tbFuncs.take 15, isTurboSpecificName s.name = false) := by
  constructor
  · simp [turboSpecificListed, List.mem_filter]
  · simp [noneFoundEmitted, turboSpecificListed, List.isEmpty_iff,
      List.filter_eq_nil_iff]

/-- Witness for `turbo_specific_listing` at concrete inputs. -/
theorem turbo_specific_listing_witness :
    ((⟨"TurboReader".data, "5%".data, "1s".data⟩ : FuncRec) ∈
      turboSpecificListed [⟨"TurboReader".data, "5%".data, "1s".data⟩]) ∧
    noneFoundEmitted [⟨"plain.fn".data, "5%".data, "1s".data⟩] = true := by
  constructor
  · exact (turbo_specific_listing [⟨"TurboReader".data, "5%".data, "1s".data⟩]
      ⟨"TurboReader".data, "5%".data, "1s".data⟩).1.mpr ⟨by decide, by decide⟩
  · exact (turbo_specific_listing [⟨"plain.fn".data, "5%".data, "1s".data⟩]
      ⟨"plain.fn".data, "5%".data, "1s".data⟩).2.mpr (by decide)

/-! ## Claim C8: extraction with no header marker -/

theorem extractLoop_false_no_marker (ls : List (List Char))
    (h : ∀ l ∈ ls, hasMarker l = false) : extractLoop false ls = [] := by
  induction ls with
  | nil => rfl
  | cons line rest ih =>
    have h1 : hasMarker line = false := h line (by simp)
    simp only [extractLoop, h1, Bool.false_eq_true, if_false, Bool.false_and]
    exact ih (fun l hl => h l (by simp [hl]))

/-- C8: if no line of the profile text contains the header marker
`'flat  flat%'`, extraction returns the empty sequence (and, being a total
function, raises nothing). -/
theorem extract_no_marker (output : List Char)
    (h : ∀ l ∈ splitNl output, hasMarker l = false) :
    extract_top_functions output = [] :=
  extractLoop_false_no_marker _ h

/-- Witness for `extract_no_marker` on a concrete marker-free text. -/
theorem extract_no_marker_witness :
    extract_top_functions "Duration: 1.2s\nno header here\n".data = [] :=
  extract_no_marker "Duration: 1.2s\nno header here\n".data (by decide)

/-! ## Dictionary lemmas -/

theorem dictInsert_nil {V : Type} (k : List Char) (v : V) :
    dictInsert k v [] = [(k, v)] := rfl

theorem dictInsert_cons {V : Type} (k : List Char) (v : V) (k1 : List Char) (v1 : V)
    (m : List (List Char × V)) :
    dictInsert k v ((k1, v1) :: m) =
      if k1 = k then (k, v) :: m else (k1, v1) :: dictInsert k v m := rfl

theorem alookup_nil {V : Type} (k : List Char) :
    alookup k ([] : List (List Char × V)) = none := rfl

theorem alookup_cons {V : Type} (k k1 : List Char) (v1 : V)
    (m : List (List Char × V)) :
    alookup k ((k1, v1) :: m) = if k1 = k then some v1 else alookup k m := rfl

theorem mem_keys_dictInsert {V : Type} (k a : List Char) (v : V)
    (m : List (List Char × V)) :
    (a ∈ (dictInsert k v m).map Prod.fst) ↔ a = k ∨ a ∈ m.map Prod.fst := by
  induction m with
  | nil => simp [dictInsert_nil]
  | cons e m ih =>
    obtain ⟨k1, v1⟩ := e
    by_cases h : k1 = k
    · subst h
      rw [dictInsert_cons, if_pos rfl]
      simp only [List.map_cons, List.mem_cons]
      tauto
    · rw [dictInsert_cons, if_neg h]
      simp only [List.map_cons, List.mem_cons, ih]
      tauto

theorem nodup_keys_dictInsert {V : Type} (k : List Char) (v : V)
    (m : List (List Char × V)) (h : (m.map Prod.fst).Nodup) :
    ((dictInsert k v m).map Prod.fst).Nodup := by
  induction m with
  | nil =>
    rw [dictInsert_nil]
    simp
  | cons e m ih =>
    obtain ⟨k1, v1⟩ := e
    simp only [List.map_cons, List.nodup_cons] at h
    by_cases hk : k1 = k
    · subst hk
      rw [dictInsert_cons, if_pos rfl]
      simp only [List.map_cons, List.nodup_cons]
      exact h
    · rw [dictInsert_cons, if_neg hk]
      simp only [List.map_cons, List.nodup_cons]
      refine ⟨?_, ih h.2⟩
      rw [mem_keys_dictInsert]
      rintro (h1 | h1)
      · exact hk h1
      · exact h.1 h1

theorem alookup_dictInsert_self {V : Type} (k : List Char) (v : V)
    (m : List (List Char × V)) : alookup k (dictInsert k v m) = some v := by
  induction m with
  | nil => rw [dictInsert_nil, alookup_cons, if_pos rfl]
  | cons e m ih =>
    obtain ⟨k1, v1⟩ := e
    by_cases h : k1 = k
    · subst h
      rw [dictInsert_cons, if_pos rfl, alookup_cons, if_pos rfl]
    · rw [dictInsert_cons, if_neg h, alookup_cons, if_neg h]
      exact ih

theorem alookup_dictInsert_ne {V : Type} (k a : List Char) (v : V)
    (m : List (List Char × V)) (h : a ≠ k) :
    alookup a (dictInsert k v m) = alookup a m := by
  have hka : ¬ k = a := fun hh => h hh.symm
  induction m with
  | nil => rw [dictInsert_nil, alookup_cons, if_neg hka, alookup_nil]
  | cons e m ih =>
    obtain ⟨k1, v1⟩ := e
    by_cases h1 : k1 = k
    · subst h1
      rw [dictInsert_cons, if_pos rfl, alookup_cons, if_neg hka, alookup_cons,
        if_neg hka]
    · rw [dictInsert_cons, if_neg h1, alookup_cons, alookup_cons]
      by_cases h2 : k1 = a
      · rw [if_pos h2, if_pos h2]
      · rw [if_neg h2, if_neg h2]
        exact ih

theorem alookup_mem {V : Type} (k : List Char) (m : List (List Char × V)) (v : V)
    (h : alookup k m = some v) : (k, v) ∈ m := by
  induction m with
  | nil => cases h
  | cons e m ih =>
    obtain ⟨k1, v1⟩ := e
    by_cases h1 : k1 = k
    · subst h1
      rw [alookup_cons, if_pos rfl] at h
      cases h
      exact List.mem_cons_self _ _
    · rw [alookup_cons, if_neg h1] at h
      exact List.mem_cons_of_mem _ (ih h)

theorem alookup_mem_keys {V : Type} (k : List Char) (m : List (List Char × V)) (v : V)
    (h : alookup k m = some v) : k ∈ m.map Prod.fst :=
  List.mem_map_of_mem Prod.fst (alookup_mem k m v h)

theorem alookup_none_of_not_mem {V : Type} (k : List Char) (m : List (List Char × V))
    (h : k ∉ m.map Prod.fst) : alookup k m = none := by
  induction m with
  | nil => rfl
  | cons e m ih =>
    obtain ⟨k1, v1⟩ := e
    have h1 : ¬ k1 = k := by
      intro hh
      exact h (by rw [List.map_cons, hh]; exact List.mem_cons_self _ _)
    have h2 : k ∉ m.map Prod.fst := by
      intro hh
      exact h (by rw [List.map_cons]; exact List.mem_cons_of_mem _ hh)
    rw [alookup_cons, if_neg h1]
    exact ih h2

theorem mem_dictInsert {V : Type} (k : List Char) (v : V)
    (m : List (List Char × V)) (kv : List Char × V) (h : kv ∈ dictInsert k v m) :
    kv = (k, v) ∨ kv ∈ m := by
  induction m with
  | nil =>
    rw [dictInsert_nil] at h
    exact Or.inl (by simpa using h)
  | cons e m ih =>
    obtain ⟨k1, v1⟩ := e
    by_cases h1 : k1 = k
    · subst h1
      rw [dictInsert_cons, if_pos rfl] at h
      rcases List.mem_cons.mp h with h2 | h2
      · exact Or.inl h2
      · exact Or.inr (List.mem_cons_of_mem _ h2)
    · rw [dictInsert_cons, if_neg h1] at h
      rcases List.mem_cons.mp h with h2 | h2
      · exact Or.inr (by simp [h2])
      · rcases ih h2 with h3 | h3
        · exact Or.inl h3
        · exact Or.inr (List.mem_cons_of_mem _ h3)

/-! ## Claim C6: totality of the percentage-alignment merge -/

theorem keys_phase1 (nt : List FuncRec) (m0 : List (List Char × PctPair))
    (a : List Char) :
    (a ∈ ((nt.foldl funcMapStep1 m0).map Prod.fst)) ↔
      a ∈ m0.map Prod.fst ∨ a ∈ nt.map FuncRec.name := by
  induction nt generalizing m0 with
  | nil => simp
  | cons r nt ih =>
    simp only [List.foldl_cons, List.map_cons, List.mem_cons]
    rw [ih, funcMapStep1, mem_keys_dictInsert]
    tauto

theorem keys_funcMapStep2 (m0 : List (List Char × PctPair)) (r : FuncRec)
    (a : List Char) :
    (a ∈ (funcMapStep2 m0 r).map Prod.fst) ↔ a = r.name ∨ a ∈ m0.map Prod.fst := by
  unfold funcMapStep2
  cases alookup r.name m0 <;> rw [mem_keys_dictInsert]

theorem keys_phase2 (tb : List FuncRec) (m0 : List (List Char × PctPair))
    (a : List Char) :
    (a ∈ ((tb.foldl funcMapStep2 m0).map Prod.fst)) ↔
      a ∈ m0.map Prod.fst ∨ a ∈ tb.map FuncRec.name := by
  induction tb generalizing m0 with
  | nil => simp
  | cons r tb ih =>
    simp only [List.foldl_cons, List.map_cons, List.mem_cons]
    rw [ih, keys_funcMapStep2]
    tauto

theorem nodup_phase1 (nt : List FuncRec) (m0 : List (List Char × PctPair))
    (h : (m0.map Prod.fst).Nodup) :
    ((nt.foldl funcMapStep1 m0).map Prod.fst).Nodup := by
  induction nt generalizing m0 with
  | nil => exact h
  | cons r nt ih =>
    exact ih _ (nodup_keys_dictInsert _ _ _ h)

theorem nodup_phase2 (tb : List FuncRec) (m0 : List (List Char × PctPair))
    (h : (m0.map Prod.fst).Nodup) :
    ((tb.foldl funcMapStep2 m0).map Prod.fst).Nodup := by
  induction tb generalizing m0 with
  | nil => exact h
  | cons r tb ih =>
    refine ih _ ?_
    unfold funcMapStep2
    cases alookup r.name m0 <;> exact nodup_keys_dictInsert _ _ _ h

theorem alookup_phase2_not_mem (tb : List FuncRec)
    (m0 : List (List Char × PctPair)) (k : List Char)
    (h : k ∉ tb.map FuncRec.name) :
    alookup k (tb.foldl funcMapStep2 m0) = alookup k m0 := by
  induction tb generalizing m0 with
  | nil => rfl
  | cons r tb ih =>
    simp only [List.map_cons, List.mem_cons] at h
    push_neg at h
    simp only [List.foldl_cons]
    rw [ih _ h.2]
    unfold funcMapStep2
    cases alookup r.name m0 <;> exact alookup_dictInsert_ne _ _ _ _ h.1

theorem phase1_entries_snd (nt : List FuncRec) (m0 : List (List Char × PctPair))
    (h0 : ∀ kv ∈ m0, kv.2.2 = zeroPct) :
    ∀ kv ∈ nt.foldl funcMapStep1 m0, kv.2.2 = zeroPct := by
  induction nt generalizing m0 with
  | nil => exact h0
  | cons r nt ih =>
    refine ih _ ?_
    intro kv h1
    rcases mem_dictInsert _ _ _ _ h1 with h2 | h2
    · rw [h2]
    · exact h0 _ h2

theorem phase2_fst_placeholder (tb : List FuncRec) (ntNames : List (List Char))
    (m0 : List (List Char × PctPair)) (k : List Char) (v : PctPair)
    (hsub : ∀ a ∈ ntNames, a ∈ m0.map Prod.fst)
    (hinv : ∀ a w, alookup a m0 = some w → a ∉ ntNames → w.1 = zeroPct)
    (hl : alookup k (tb.foldl funcMapStep2 m0) = some v) (hk : k ∉ ntNames) :
    v.1 = zeroPct := by
  induction tb generalizing m0 with
  | nil => exact hinv _ _ hl hk
  | cons r tb ih =>
    simp only [List.foldl_cons] at hl
    refine ih (funcMapStep2 m0 r) ?_ ?_ hl
    · intro a ha
      rw [keys_funcMapStep2]
      exact Or.inr (hsub a ha)
    · intro a w haw hna
      unfold funcMapStep2 at haw
      cases hr : alookup r.name m0 with
      | some p =>
        rw [hr] at haw
        by_cases hak : a = r.name
        · subst hak
          rw [alookup_dictInsert_self] at haw
          cases haw
          simpa using hinv _ _ hr hna
        · rw [alookup_dictInsert_ne _ _ _ _ hak] at haw
          exact hinv _ _ haw hna
      | none =>
        rw [hr] at haw
        by_cases hak : a = r.name
        · subst hak
          rw [alookup_dictInsert_self] at haw
          cases haw
          rfl
        · rw [alookup_dictInsert_ne _ _ _ _ hak] at haw
          exact hinv _ _ haw hna

/-- C6: the percentage-alignment merge is total — the merged map's keys are
exactly the union of the two key sets, each key appears exactly once
(`Nodup`), and a key present on only one side carries the `'0%'`
placeholder on the missing side. -/
theorem merge_total (nt tb : List FuncRec) (k : List Char) (v : PctPair) :
    ((buildFuncMap nt tb).map Prod.fst).Nodup ∧
    (k ∈ (buildFuncMap nt tb).map Prod.fst ↔
      k ∈ nt.map FuncRec.name ∨ k ∈ tb.map FuncRec.name) ∧
    (alookup k (buildFuncMap nt tb) = some v → k ∉ tb.map FuncRec.name →
      v.2 = zeroPct) ∧
    (alookup k (buildFuncMap nt tb) = some v → k ∉ nt.map FuncRec.name →
      v.1 = zeroPct) := by
  refine ⟨?_, ?_, ?_, ?_⟩
  · exact nodup_phase2 _ _ (nodup_phase1 _ [] (by simp))
  · rw [buildFuncMap, keys_phase2, keys_phase1]
    simp
  · intro hl hk
    rw [buildFuncMap, alookup_phase2_not_mem _ _ _ hk] at hl
    exact phase1_entries_snd nt [] (by simp) _ (alookup_mem _ _ _ hl)
  · intro hl hk
    refine phase2_fst_placeholder tb (nt.map FuncRec.name) _ k v ?_ ?_ hl hk
    · intro a ha
      rw [keys_phase1]
      exact Or.inr ha
    · intro a w haw hna
      have hk2 : a ∈ ((nt.foldl funcMapStep1 []).map Prod.fst) :=
        alookup_mem_keys _ _ _ haw
      rw [keys_phase1] at hk2
      rcases hk2 with hk2 | hk2
      · simp at hk2
      · exact absurd hk2 hna

/-- Witness for `merge_total` at concrete inputs. -/
theorem merge_total_witness :
    ("fnA".data ∈
      (buildFuncMap [⟨"fnA".data, "30%".data, "1s".data⟩]
        [⟨"fnB".data, "25%".data, "2s".data⟩]).map Prod.fst) ∧
    (("30%".data, zeroPct) : PctPair).2 = zeroPct := by
  refine ⟨?_, ?_⟩
  · exact (merge_total [⟨"fnA".data, "30%".data, "1s".data⟩]
      [⟨"fnB".data, "25%".data, "2s".data⟩] "fnA".data
      ("30%".data, zeroPct)).2.1.mpr (Or.inl (by decide))
  · exact (merge_total [⟨"fnA".data, "30%".data, "1s".data⟩]
      [⟨"fnB".data, "25%".data, "2s".data⟩] "fnA".data
      ("30%".data, zeroPct)).2.2.1 (by decide) (by decide)

/-! ## Claim C7: benchmark alignment is an inner join -/

theorem appendGroup_nil (c k : List Char) : appendGroup c k [] = [(c, [k])] := rfl

theorem appendGroup_cons (c k c1 : List Char) (ks : List (List Char))
    (rest : List (List Char × List (List Char))) :
    appendGroup c k ((c1, ks) :: rest) =
      if c1 = c then (c1, ks ++ [k]) :: rest else (c1, ks) :: appendGroup c k rest := rfl

theorem mem_flatten_appendGroup (c k x : List Char)
    (cmds : List (List Char × List (List Char))) :
    (x ∈ ((appendGroup c k cmds).map Prod.snd).flatten) ↔
      x ∈ (cmds.map Prod.snd).flatten ∨ x = k := by
  induction cmds with
  | nil =>
    rw [appendGroup_nil]
    simp
  | cons g rest ih =>
    obtain ⟨c1, ks⟩ := g
    rw [appendGroup_cons]
    by_cases hc : c1 = c
    · rw [if_pos hc]
      simp only [List.map_cons, List.flatten_cons, List.mem_append,
        List.mem_singleton]
      tauto
    · rw [if_neg hc]
      simp only [List.map_cons, List.flatten_cons, List.mem_append, ih]
      tauto

theorem commandFold_mem (tbKeys ks : List (List Char))
    (cmds : List (List Char × List (List Char))) (x : List Char) :
    (x ∈ ((ks.foldl (fun cmds k =>
        if k ∈ tbKeys then appendGroup (cmdOf k) k cmds else cmds) cmds).map
          Prod.snd).flatten) ↔
      x ∈ (cmds.map Prod.snd).flatten ∨ (x ∈ ks ∧ x ∈ tbKeys) := by
  induction ks generalizing cmds with
  | nil => simp
  | cons a ks ih =>
    simp only [List.foldl_cons]
    by_cases ha : a ∈ tbKeys
    · rw [if_pos ha, ih, mem_flatten_appendGroup]
      constructor
      · rintro ((h | h) | h)
        · exact Or.inl h
        · subst h
          exact Or.inr ⟨List.mem_cons_self _ _, ha⟩
        · exact Or.inr ⟨List.mem_cons_of_mem _ h.1, h.2⟩
      · rintro (h | ⟨h1, h2⟩)
        · exact Or.inl (Or.inl h)
        · rcases List.mem_cons.mp h1 with h3 | h3
          · subst h3
            exact Or.inl (Or.inr rfl)
          · exact Or.inr ⟨h3, h2⟩
    · rw [if_neg ha, ih]
      constructor
      · rintro (h | h)
        · exact Or.inl h
        · exact Or.inr ⟨List.mem_cons_of_mem _ h.1, h.2⟩
      · rintro (h | ⟨h1, h2⟩)
        · exact Or.inl h
        · rcases List.mem_cons.mp h1 with h3 | h3
          · subst h3
            exact absurd h2 ha
          · exact Or.inr ⟨h3, h2⟩

theorem foldl_guard_append {α β : Type} (p : α → Prop) [DecidablePred p] (f : α → β)
    (ks : List α) (acc : List β) :
    ks.foldl (fun acc k => if p k then acc ++ [f k] else acc) acc =
      acc ++ (ks.filter (fun k => decide (p k))).map f := by
  induction ks generalizing acc with
  | nil => simp
  | cons a ks ih =>
    simp only [List.foldl_cons]
    by_cases h : p a
    · rw [if_pos h, ih, List.filter_cons, if_pos (by simpa using h)]
      simp
    · rw [if_neg h, ih, List.filter_cons, if_neg (by simpa using h)]

/-- C7: a key gets compared rows in the per-command report, and contributes
to the aggregate time-improvement statistics, iff it is present in both
benchmark result dicts; one-sided keys are dropped and cause no error (both
functions are total). -/
theorem benchmark_inner_join (nt tb : List (List Char × BenchRec)) (k : List Char) :
    (k ∈ groupRowKeys nt tb ↔ k ∈ nt.map Prod.fst ∧ k ∈ tb.map Prod.fst) ∧
    totalTimeImprovement nt tb =
      ((nt.map Prod.fst).filter (fun a => decide (a ∈ tb.map Prod.fst))).map
        (fun a => calculate_improvement (getRec nt a).nsPerOp (getRec tb a).nsPerOp) := by
  constructor
  · unfold groupRowKeys commandGroups
    rw [commandFold_mem]
    simp only [List.map_nil, List.flatten_nil, List.not_mem_nil, false_or]
  · unfold totalTimeImprovement
    rw [foldl_guard_append (fun a => a ∈ tb.map Prod.fst)
      (fun a => calculate_improvement (getRec nt a).nsPerOp (getRec tb a).nsPerOp)]
    rw [List.nil_append]

/-- Witness for `benchmark_inner_join` at concrete dicts: the shared key is
compared, and the aggregate has exactly the one shared key's improvement. -/
theorem benchmark_inner_join_witness :
    ("T/cat/a".data ∈ groupRowKeys
      [("T/cat/a".data, ⟨100, 1, none, none, none⟩),
       ("T/cat/b".data, ⟨200, 1, none, none, none⟩)]
      [("T/cat/a".data, ⟨50, 1, none, none, none⟩)]) :=
  (benchmark_inner_join
    [("T/cat/a".data, ⟨100, 1, none, none, none⟩),
     ("T/cat/b".data, ⟨200, 1, none, none, none⟩)]
    [("T/cat/a".data, ⟨50, 1, none, none, none⟩)]
    "T/cat/a".data).1.mpr ⟨by decide, by decide⟩

/-! ## Claim C5: extraction of well-formed profile tables -/

theorem extractLoop_skip (pre ls : List (List Char))
    (h : ∀ l ∈ pre, hasMarker l = false) :
    extractLoop false (pre ++ ls) = extractLoop false ls := by
  induction pre with
  | nil => rfl
  | cons a pre ih =>
    have h1 : hasMarker a = false := h a (by simp)
    simp only [List.cons_append, extractLoop, h1, Bool.false_eq_true, if_false,
      Bool.false_and]
    exact ih (fun l hl => h l (by simp [hl]))

theorem extractLoop_true_body (body : List (List Char))
    (h : ∀ l ∈ body, hasMarker l = false ∧
      (pyStripTruthy l = false ∨ 5 ≤ (pySplit l).length)) :
    extractLoop true body = (body.filter (fun l => pyStripTruthy l)).map recOfLine := by
  induction body with
  | nil => rfl
  | cons a body ih =>
    obtain ⟨h1, h2⟩ := h a (by simp)
    have ih2 := ih (fun l hl => h l (by simp [hl]))
    by_cases hb : pyStripTruthy a = true
    · rcases h2 with h2 | h2
      · rw [hb] at h2
        cases h2
      · simp only [extractLoop, h1, Bool.false_eq_true, if_false, Bool.true_and, hb,
          if_true, if_pos h2, List.filter_cons, List.map_cons, ih2]
    · simp only [Bool.not_eq_true] at hb
      simp only [extractLoop, h1, Bool.false_eq_true, if_false, Bool.true_and, hb,
        List.filter_cons, ih2]

/-- C5: for a profile text whose lines are marker-free lines, then a header
line containing `'flat  flat%'`, then a body of blank lines and well-formed
data lines (non-blank, at least five whitespace tokens, marker-free),
extraction returns exactly one record per data line, in source order, with
`flat_time` the first token, `flat_percent` the second token, and the name
the tokens from index 4 rejoined with single spaces; pre-header lines and
blank lines contribute nothing. -/
theorem extract_structured (output : List Char) (pre : List (List Char))
    (hline : List Char) (body : List (List Char))
    (hsplit : splitNl output = pre ++ hline :: body)
    (hpre : ∀ l ∈ pre, hasMarker l = false)
    (hh : hasMarker hline = true)
    (hbody : ∀ l ∈ body, hasMarker l = false ∧
      (pyStripTruthy l = false ∨ 5 ≤ (pySplit l).length)) :
    extract_top_functions output =
      (body.filter (fun l => pyStripTruthy l)).map (fun l =>
        (⟨joinSpace ((pySplit l).drop 4), (pySplit l).getD 1 [],
          (pySplit l).getD 0 []⟩ : FuncRec)) ∧
    (extract_top_functions output).length =
      (body.filter (fun l => pyStripTruthy l)).length := by
  have hmain : extract_top_functions output =
      (body.filter (fun l => pyStripTruthy l)).map recOfLine := by
    unfold extract_top_functions
    rw [hsplit, extractLoop_skip _ _ hpre]
    simp only [extractLoop, hh, if_true]
    exact extractLoop_true_body body hbody
  refine ⟨hmain, ?_⟩
  rw [hmain, List.length_map]

/-- Witness for `extract_structured` on a concrete profiler output. -/
theorem extract_structured_witness :
    extract_top_functions
      "junk\nflat  flat%\n0.5s 30% 1s 50% github.com/foo bar\n\n1s 20% 1s 70% fnB".data =
      [⟨"github.com/foo bar".data, "30%".data, "0.5s".data⟩,
       ⟨"fnB".data, "20%".data, "1s".data⟩] := by
  have h := extract_structured
    "junk\nflat  flat%\n0.5s 30% 1s 50% github.com/foo bar\n\n1s 20% 1s 70% fnB".data
    ["junk".data] "flat  flat%".data
    ["0.5s 30% 1s 50% github.com/foo bar".data, [], "1s 20% 1s 70% fnB".data]
    (by decide) (by decide) (by decide) (by decide)
  rw [h.1]
  decide

/-! ## Claim C2: numeric parsing in the extraction–merge–report pipeline -/

/-- C2 as stated is false: on a profile whose single data line has the
malformed flat_percent token `abc`, the whole extraction–merge–report
pipeline raises a `ValueError` (from `float(·.rstrip('%'))` in the sort key
of line 109) instead of treating the field as absent. -/
theorem profile_parse_raises_counterexample :
    compare_profiles_rows "flat  flat%\n0.5s abc 1 2 myfunc".data "".data =
      Except.error "ValueError" := by rfl

theorem phase1_entry_sides (nt : List FuncRec) (P : PctPair → Prop)
    (hstep : ∀ r ∈ nt, P (r.flatPct, zeroPct)) :
    ∀ m0, (∀ kv ∈ m0, P kv.2) → ∀ kv ∈ nt.foldl funcMapStep1 m0, P kv.2 := by
  induction nt with
  | nil => intro m0 h0; exact h0
  | cons r nt ih =>
    intro m0 h0
    refine ih (fun s hs => hstep s (List.mem_cons_of_mem _ hs)) (funcMapStep1 m0 r) ?_
    intro kv h1
    rcases mem_dictInsert _ _ _ _ h1 with h2 | h2
    · rw [h2]
      exact hstep r (List.mem_cons_self _ _)
    · exact h0 _ h2

theorem phase2_entry_sides (tb : List FuncRec) (P Q : List Char → Prop)
    (hq : ∀ r ∈ tb, Q r.flatPct) (hz1 : P zeroPct) :
    ∀ m0, (∀ kv ∈ m0, P kv.2.1 ∧ Q kv.2.2) →
      ∀ kv ∈ tb.foldl funcMapStep2 m0, P kv.2.1 ∧ Q kv.2.2 := by
  induction tb with
  | nil => intro m0 h0; exact h0
  | cons r tb ih =>
    intro m0 h0
    refine ih (fun s hs => hq s (List.mem_cons_of_mem _ hs)) (funcMapStep2 m0 r) ?_
    intro kv h1
    cases hr : alookup r.name m0 with
    | some p =>
      simp only [funcMapStep2, hr] at h1
      rcases mem_dictInsert _ _ _ _ h1 with h2 | h2
      · rw [h2]
        exact ⟨(h0 _ (alookup_mem _ _ _ hr)).1, hq r (List.mem_cons_self _ _)⟩
      · exact h0 _ h2
    | none =>
      simp only [funcMapStep2, hr] at h1
      rcases mem_dictInsert _ _ _ _ h1 with h2 | h2
      · rw [h2]
        exact ⟨hz1, hq r (List.mem_cons_self _ _)⟩
      · exact h0 _ h2

theorem buildFuncMap_entry_sides (nt tb : List FuncRec) (kv : List Char × PctPair)
    (h : kv ∈ buildFuncMap nt tb) :
    (kv.2.1 = zeroPct ∨ kv.2.1 ∈ nt.map FuncRec.flatPct) ∧
    (kv.2.2 = zeroPct ∨ kv.2.2 ∈ tb.map FuncRec.flatPct) := by
  refine phase2_entry_sides tb
    (fun s => s = zeroPct ∨ s ∈ nt.map FuncRec.flatPct)
    (fun s => s = zeroPct ∨ s ∈ tb.map FuncRec.flatPct)
    (fun r hr => Or.inr (List.mem_map_of_mem _ hr)) (Or.inl rfl)
    _ ?_ kv h
  intro kv1 hk1
  constructor
  · exact phase1_entry_sides nt
      (fun p => p.1 = zeroPct ∨ p.1 ∈ nt.map FuncRec.flatPct)
      (fun r hr => Or.inr (List.mem_map_of_mem _ hr)) []
      (fun kv2 h3 => absurd h3 (List.not_mem_nil _)) kv1 hk1
  · exact Or.inl (phase1_entries_snd nt []
      (fun kv2 h3 => absurd h3 (List.not_mem_nil _)) kv1 hk1)

theorem mapM_except_ok {α β : Type} (f : α → Except String β) (l : List α)
    (h : ∀ x ∈ l, ∃ y, f x = Except.ok y) :
    ∃ ys, l.mapM f = Except.ok ys := by
  induction l with
  | nil => exact ⟨[], rfl⟩
  | cons a l ih =>
    obtain ⟨y, hy⟩ := h a (List.mem_cons_self _ _)
    obtain ⟨ys, hys⟩ := ih (fun x hx => h x (List.mem_cons_of_mem _ hx))
    refine ⟨y :: ys, ?_⟩
    rw [List.mapM_cons, hy, hys]
    simp [Bind.bind, Except.bind, Pure.pure, Except.pure]

theorem mapM_except_mem {α β : Type} (f : α → Except String β) (l : List α)
    (ys : List β) (h : l.mapM f = Except.ok ys) :
    ∀ y ∈ ys, ∃ x ∈ l, f x = Except.ok y := by
  induction l generalizing ys with
  | nil =>
    simp only [List.mapM_nil] at h
    cases h
    intro y hy
    exact absurd hy (List.not_mem_nil _)
  | cons a l ih =>
    rw [List.mapM_cons] at h
    cases hfa : f a with
    | error e =>
      rw [hfa] at h
      simp [Bind.bind, Except.bind] at h
    | ok b =>
      rw [hfa] at h
      cases hml : l.mapM f with
      | error e =>
        rw [hml] at h
        simp [Bind.bind, Except.bind] at h
      | ok bs =>
        rw [hml] at h
        simp only [Bind.bind, Except.bind, Pure.pure, Except.pure] at h
        cases h
        intro y hy
        rcases List.mem_cons.mp hy with hc | hc
        · subst hc
          exact ⟨a, List.mem_cons_self _ _, hfa⟩
        · obtain ⟨x, hx1, hx2⟩ := ih bs hml y hc
          exact ⟨x, List.mem_cons_of_mem _ hx1, hx2⟩

theorem mem_insertDesc (x y : PctEntry) (l : List PctEntry) :
    y ∈ insertDesc x l ↔ y = x ∨ y ∈ l := by
  induction l with
  | nil => simp [insertDesc]
  | cons a l ih =>
    by_cases h : a.2 ≤ x.2
    · simp [insertDesc, h]
    · simp only [insertDesc, if_neg h, List.mem_cons, ih]
      tauto

theorem mem_sortDesc (l : List PctEntry) (y : PctEntry) :
    y ∈ sortDesc l ↔ y ∈ l := by
  induction l with
  | nil => simp [sortDesc]
  | cons a l ih =>
    rw [sortDesc, List.foldr_cons, mem_insertDesc]
    rw [sortDesc] at ih
    rw [ih]
    simp

/-- C2 amended: extraction performs no numeric parsing, but the report
stage does — when every extracted flat_percent token of both profiles
parses as a float after stripping trailing `%` characters, the whole
extraction–merge–report pipeline succeeds without raising.  (The
counterexample shows a malformed token makes it raise a `ValueError`.) -/
theorem profile_pipeline_ok (ntText tbText : List Char)
    (h1 : ∀ r ∈ extract_top_functions ntText, pyFloat (rstripPct r.flatPct) ≠ none)
    (h2 : ∀ r ∈ extract_top_functions tbText, pyFloat (rstripPct r.flatPct) ≠ none) :
    ∃ rows, compare_profiles_rows ntText tbText = Except.ok rows := by
  have hz : pyFloat (rstripPct zeroPct) = some 0 := by decide
  have hA : ∀ e ∈ buildFuncMap (extract_top_functions ntText) (extract_top_functions tbText),
      ∃ qa, pyFloatE (rstripPct e.2.1) = Except.ok qa := by
    intro e he
    rcases (buildFuncMap_entry_sides _ _ e he).1 with hc | hc
    · exact ⟨0, by rw [hc]; simp only [pyFloatE, hz]⟩
    · obtain ⟨r, hr, hre⟩ := List.mem_map.mp hc
      have hne := h1 r hr
      cases hp : pyFloat (rstripPct r.flatPct) with
      | none => exact absurd hp hne
      | some q => exact ⟨q, by rw [← hre]; simp only [pyFloatE, hp]⟩
  have hB : ∀ e ∈ buildFuncMap (extract_top_functions ntText) (extract_top_functions tbText),
      ∃ qb, pyFloatE (rstripPct e.2.2) = Except.ok qb := by
    intro e he
    rcases (buildFuncMap_entry_sides _ _ e he).2 with hc | hc
    · exact ⟨0, by rw [hc]; simp only [pyFloatE, hz]⟩
    · obtain ⟨r, hr, hre⟩ := List.mem_map.mp hc
      have hne := h2 r hr
      cases hp : pyFloat (rstripPct r.flatPct) with
      | none => exact absurd hp hne
      | some q => exact ⟨q, by rw [← hre]; simp only [pyFloatE, hp]⟩
  have hkey : ∀ e ∈ buildFuncMap (extract_top_functions ntText) (extract_top_functions tbText),
      ∃ y, ((sortKeyE e.2.1).bind fun kv => pure ((e, kv) : PctEntry)) = Except.ok y := by
    intro e he
    by_cases h0 : e.2.1 = zeroPct
    · exact ⟨(e, 0), by rw [sortKeyE, if_pos h0]; rfl⟩
    · obtain ⟨qa, hqa⟩ := hA e he
      exact ⟨(e, qa), by rw [sortKeyE, if_neg h0, hqa]; rfl⟩
  obtain ⟨keyed, hkeyed⟩ := mapM_except_ok _ _ hkey
  have hmem := mapM_except_mem _ _ _ hkeyed
  have hrow : ∀ ek ∈ (sortDesc keyed).take 10, ∃ pr, rowOf ek.1 = Except.ok pr := by
    intro ek hek
    have hek2 : ek ∈ keyed := (mem_sortDesc keyed ek).mp (List.take_subset _ _ hek)
    obtain ⟨e, he, hfe⟩ := hmem ek hek2
    have he1 : ek.1 = e := by
      by_cases h0 : e.2.1 = zeroPct
      · rw [sortKeyE, if_pos h0] at hfe
        cases hfe
        rfl
      · obtain ⟨qa, hqa⟩ := hA e he
        rw [sortKeyE, if_neg h0, hqa] at hfe
        cases hfe
        rfl
    obtain ⟨qa, hqa⟩ := hA e he
    obtain ⟨qb, hqb⟩ := hB e he
    refine ⟨⟨truncateName e.1, e.2.1, e.2.2, qb - qa⟩, ?_⟩
    rw [he1]
    unfold rowOf
    rw [hqa, hqb]
    rfl
  obtain ⟨rows, hrows⟩ := mapM_except_ok _ _ hrow
  refine ⟨rows, ?_⟩
  have hkeyed2 : List.mapM (fun e => do
      let kv ← sortKeyE e.2.1
      pure ((e, kv) : PctEntry))
      (buildFuncMap (extract_top_functions ntText) (extract_top_functions tbText)) =
      Except.ok keyed := hkeyed
  unfold compare_profiles_rows compareRows
  rw [hkeyed2]
  exact hrows

/-- Witness for `profile_pipeline_ok` on concrete well-formed profiles. -/
theorem profile_pipeline_ok_witness :
    ∃ rows, compare_profiles_rows
      "flat  flat%\n0.5s 30% 1 2 fnA\n0.2s 20% 1 2 fnB".data
      "flat  flat%\n0.4s 25% 1 2 fnB\n0.1s 10% 1 2 fnC".data = Except.ok rows :=
  profile_pipeline_ok
    "flat  flat%\n0.5s 30% 1 2 fnA\n0.2s 20% 1 2 fnB".data
    "flat  flat%\n0.4s 25% 1 2 fnB\n0.1s 10% 1 2 fnC".data
    (by decide) (by decide)

/-! ## Claim C10: benchmark lines with malformed command or params -/

theorem isPrefixOf_append_self (a b : List Char) : a.isPrefixOf (a ++ b) = true := by
  induction a with
  | nil => simp [List.isPrefixOf]
  | cons c a ih => simp [List.isPrefixOf, ih]

theorem litP_append (lit r : List Char) : litP lit (lit ++ r) = some r := by
  unfold litP
  rw [if_pos (isPrefixOf_append_self lit r), List.drop_left]

theorem litP_not_prefixOf (lit l : List Char) (h : lit.isPrefixOf l = false) :
    litP lit l = none := by
  unfold litP
  rw [h]
  rfl

theorem single_not_prefixOf (a d : Char) (l : List Char) (h : d ≠ a) :
    ([a] : List Char).isPrefixOf (d :: l) = false := by
  have hbeq : (a == d) = false := by
    rw [beq_eq_false_iff_ne]
    exact fun hh => h hh.symm
  simp [List.isPrefixOf, hbeq]

theorem litP_single_ne (a d : Char) (l : List Char) (h : d ≠ a) :
    litP [a] (d :: l) = none :=
  litP_not_prefixOf _ _ (single_not_prefixOf a d l h)

theorem takeWhile_append_all {p : Char → Bool} (a b : List Char)
    (ha : ∀ c ∈ a, p c = true) : (a ++ b).takeWhile p = a ++ b.takeWhile p := by
  induction a with
  | nil => rfl
  | cons c a ih =>
    have hc : p c = true := ha c (List.mem_cons_self _ _)
    rw [List.cons_append, List.takeWhile_cons, if_pos hc,
      ih (fun d hd => ha d (List.mem_cons_of_mem _ hd)), List.cons_append]

theorem dropWhile_append_all {p : Char → Bool} (a b : List Char)
    (ha : ∀ c ∈ a, p c = true) : (a ++ b).dropWhile p = b.dropWhile p := by
  induction a with
  | nil => rfl
  | cons c a ih =>
    have hc : p c = true := ha c (List.mem_cons_self _ _)
    rw [List.cons_append, List.dropWhile_cons, if_pos hc,
      ih (fun d hd => ha d (List.mem_cons_of_mem _ hd))]

theorem takeWhile_cons_neg {p : Char → Bool} (c : Char) (l : List Char)
    (h : p c = false) : (c :: l).takeWhile p = [] := by
  rw [List.takeWhile_cons, if_neg (by simp [h])]

theorem dropWhile_cons_neg {p : Char → Bool} (c : Char) (l : List Char)
    (h : p c = false) : (c :: l).dropWhile p = c :: l := by
  rw [List.dropWhile_cons, if_neg (by simp [h])]

theorem plusP_some {p : Char → Bool} (a : List Char) (c : Char) (r : List Char)
    (hne : a ≠ []) (hall : ∀ d ∈ a, p d = true) (hc : p c = false) :
    plusP p (a ++ c :: r) = some (a, c :: r) := by
  unfold plusP
  rw [takeWhile_append_all a (c :: r) hall, takeWhile_cons_neg c r hc,
    dropWhile_append_all a (c :: r) hall, dropWhile_cons_neg c r hc,
    List.append_nil]
  have hae : a.isEmpty = false := by
    cases a
    · exact absurd rfl hne
    · rfl
  rw [hae]
  rfl

theorem plusP_cons_none {p : Char → Bool} (c : Char) (r : List Char)
    (h : p c = false) : plusP p (c :: r) = none := by
  unfold plusP
  rw [takeWhile_cons_neg c r h]
  rfl

theorem dropWhile_head_false {p : Char → Bool} (l : List Char) (c : Char)
    (r : List Char) (h : l.dropWhile p = c :: r) : p c = false := by
  induction l with
  | nil => cases h
  | cons a l ih =>
    by_cases hp : p a = true
    · rw [List.dropWhile_cons, if_pos hp] at h
      exact ih h
    · rw [List.dropWhile_cons, if_neg hp] at h
      simp only [Bool.not_eq_true] at hp
      cases h
      exact hp

theorem matchIdent_none_badcmd (tt cmd rest : List Char)
    (htt1 : tt ≠ []) (htt2 : ∀ c ∈ tt, wordChar c = true)
    (hbad : ∃ c ∈ cmd, wordChar c = false) (hns : '/' ∉ cmd) :
    matchIdent (benchLit ++ (tt ++ '/' :: (cmd ++ '/' :: rest))) = none := by
  unfold matchIdent
  rw [litP_append]
  simp only [Option.some_bind]
  rw [plusP_some tt '/' _ htt1 htt2 (by decide)]
  simp only [Option.some_bind]
  rw [show ('/' :: (cmd ++ '/' :: rest)) = ['/'] ++ (cmd ++ '/' :: rest) from rfl,
    litP_append]
  simp only [Option.some_bind]
  obtain ⟨c0, hc0m, hc0⟩ := hbad
  have hdw : cmd.dropWhile wordChar ≠ [] := by
    intro hnil
    rw [List.dropWhile_eq_nil_iff] at hnil
    rw [hnil c0 hc0m] at hc0
    cases hc0
  obtain ⟨d, dr, hd⟩ : ∃ d dr, cmd.dropWhile wordChar = d :: dr := by
    cases hdw2 : cmd.dropWhile wordChar with
    | nil => exact absurd hdw2 hdw
    | cons d dr => exact ⟨d, dr, rfl⟩
  have hdfalse : wordChar d = false := dropWhile_head_false cmd d dr hd
  have hsplit : cmd = cmd.takeWhile wordChar ++ d :: dr := by
    conv_lhs => rw [← List.takeWhile_append_dropWhile (p := wordChar) (l := cmd)]
    rw [hd]
  have hdne : d ≠ '/' := by
    intro hdd
    apply hns
    rw [hsplit, hdd]
    exact List.mem_append.mpr (Or.inr (List.mem_cons_self _ _))
  have hinput : cmd ++ '/' :: rest =
      cmd.takeWhile wordChar ++ d :: (dr ++ '/' :: rest) := by
    conv_lhs => rw [hsplit]
    rw [List.append_assoc, List.cons_append]
  rw [hinput]
  by_cases htw : cmd.takeWhile wordChar = []
  · rw [htw, List.nil_append, plusP_cons_none d _ hdfalse]
    rfl
  · rw [plusP_some (cmd.takeWhile wordChar) d _ htw
      (fun x hx => List.mem_takeWhile_imp hx) hdfalse]
    simp only [Option.some_bind]
    rw [litP_single_ne '/' d _ hdne]
    rfl

theorem matchIdent_none_hyphen_start (tt cmd tail : List Char)
    (htt1 : tt ≠ []) (htt2 : ∀ c ∈ tt, wordChar c = true)
    (hcmd1 : cmd ≠ []) (hcmd2 : ∀ c ∈ cmd, wordChar c = true) :
    matchIdent (benchLit ++ (tt ++ '/' :: (cmd ++ '/' :: ('-' :: tail)))) = none := by
  unfold matchIdent
  rw [litP_append]
  simp only [Option.some_bind]
  rw [plusP_some tt '/' _ htt1 htt2 (by decide)]
  simp only [Option.some_bind]
  rw [show ('/' :: (cmd ++ '/' :: ('-' :: tail))) =
    ['/'] ++ (cmd ++ '/' :: ('-' :: tail)) from rfl, litP_append]
  simp only [Option.some_bind]
  rw [plusP_some cmd '/' _ hcmd1 hcmd2 (by decide)]
  simp only [Option.some_bind]
  rw [show ('/' :: ('-' :: tail)) = ['/'] ++ ('-' :: tail) from rfl, litP_append]
  simp only [Option.some_bind]
  rw [plusP_cons_none '-' tail (by decide)]
  rfl

theorem matchIdent_some (tt cmd p1 tail : List Char)
    (htt1 : tt ≠ []) (htt2 : ∀ c ∈ tt, wordChar c = true)
    (hcmd1 : cmd ≠ []) (hcmd2 : ∀ c ∈ cmd, wordChar c = true)
    (hp1ne : p1 ≠ []) (hp1 : ∀ c ∈ p1, (c != '-') = true) :
    matchIdent (benchLit ++ (tt ++ '/' :: (cmd ++ '/' :: (p1 ++ '-' :: tail)))) =
      some ((tt, cmd, p1), tail) := by
  unfold matchIdent
  rw [litP_append]
  simp only [Option.some_bind]
  rw [plusP_some tt '/' _ htt1 htt2 (by decide)]
  simp only [Option.some_bind]
  rw [show ('/' :: (cmd ++ '/' :: (p1 ++ '-' :: tail))) =
    ['/'] ++ (cmd ++ '/' :: (p1 ++ '-' :: tail)) from rfl, litP_append]
  simp only [Option.some_bind]
  rw [plusP_some cmd '/' _ hcmd1 hcmd2 (by decide)]
  simp only [Option.some_bind]
  rw [show ('/' :: (p1 ++ '-' :: tail)) = ['/'] ++ (p1 ++ '-' :: tail) from rfl,
    litP_append]
  simp only [Option.some_bind]
  rw [plusP_some p1 '-' tail hp1ne hp1 (by decide)]
  simp only [Option.some_bind]
  rw [show ('-' :: tail) = ['-'] ++ tail from rfl, litP_append]
  simp only [Option.some_bind]

theorem matchNums_none_tail (p2 rest2 : List Char)
    (hp2ns : ∀ c ∈ p2, isPySpace c = false) :
    matchNums (p2 ++ '-' :: rest2) = none := by
  by_cases hd1 : p2.takeWhile Char.isDigit = []
  · cases p2 with
    | nil =>
      unfold matchNums
      rw [List.nil_append, plusP_cons_none '-' rest2 (by decide)]
      rfl
    | cons x xs =>
      have hx : Char.isDigit x = false := by
        by_cases hq : Char.isDigit x = true
        · rw [List.takeWhile_cons, if_pos hq] at hd1
          cases hd1
        · simpa using hq
      unfold matchNums
      rw [List.cons_append, plusP_cons_none x _ hx]
      rfl
  · cases he2 : p2.dropWhile Char.isDigit with
    | nil =>
      have hp2eq : p2 = p2.takeWhile Char.isDigit := by
        conv_lhs => rw [← List.takeWhile_append_dropWhile (p := Char.isDigit) (l := p2)]
        rw [he2, List.append_nil]
      unfold matchNums
      conv_lhs => rw [hp2eq]
      rw [plusP_some _ '-' rest2 hd1 (fun x hx => List.mem_takeWhile_imp hx) (by decide)]
      simp only [Option.some_bind]
      rw [plusP_cons_none '-' rest2 (by decide)]
      rfl
    | cons y e3 =>
      have hy : Char.isDigit y = false := dropWhile_head_false p2 y e3 he2
      have hp2split : p2 = p2.takeWhile Char.isDigit ++ y :: e3 := by
        conv_lhs => rw [← List.takeWhile_append_dropWhile (p := Char.isDigit) (l := p2)]
        rw [he2]
      have hysp : isPySpace y = false := by
        apply hp2ns
        rw [hp2split]
        exact List.mem_append.mpr (Or.inr (List.mem_cons_self _ _))
      have hinput : p2 ++ '-' :: rest2 =
          p2.takeWhile Char.isDigit ++ y :: (e3 ++ '-' :: rest2) := by
        conv_lhs => rw [hp2split]
        rw [List.append_assoc, List.cons_append]
      unfold matchNums
      rw [hinput, plusP_some _ y _ hd1 (fun x hx => List.mem_takeWhile_imp hx) hy]
      simp only [Option.some_bind]
      rw [plusP_cons_none y _ hysp]
      rfl

theorem mem_tails_self (l : List Char) : l ∈ l.tails := by
  cases l <;> simp [List.tails, List.tails_cons]

theorem findAux_eq_nil (fuel : ℕ) (l : List Char)
    (h : ∀ s ∈ l.tails, matchAt s = none) : findAux fuel l = [] := by
  induction fuel generalizing l with
  | zero => rfl
  | succ fuel ih =>
    have h0 : matchAt l = none := h l (mem_tails_self l)
    cases l with
    | nil => simp only [findAux, h0]
    | cons c cs =>
      simp only [findAux, h0]
      exact ih cs (fun s hs => h s (by rw [List.tails_cons]; exact List.mem_cons_of_mem _ hs))

/-- The shape of a benchmark log line: the `Benchmark` literal, the
test-type segment, `/`, the command segment, `/`, and the remainder
(params, `-N` suffix and measurements). -/
def benchLineOf (tt cmd rest : List Char) : List Char :=
  benchLit ++ (tt ++ '/' :: (cmd ++ '/' :: rest))

/-- C10 as stated is false: the pattern is compiled on a `str` without
`re.ASCII`, so its `\w` has Unicode semantics — in the line below the
command segment `cé` contains `é` (U+00E9), a character outside
`[A-Za-z0-9_]`, yet the regex matches and the extractor produces a record
keyed `X/cé/p` instead of skipping the line. -/
theorem benchmark_unicode_cmd_counterexample :
    (('é'.isAlphanum || 'é' = '_') = false) ∧
    findRecords "BenchmarkX/cé/p-1  2  3.0 ns/op  4.0 MB/sec".data =
      [⟨"X".data, "cé".data, "p".data, "3.0".data, "4.0".data, none, none, none⟩] ∧
    (parse_benchmark_results "BenchmarkX/cé/p-1  2  3.0 ns/op  4.0 MB/sec".data).map
      (fun entries => entries.map Prod.fst) = Except.ok ["X/cé/p".data] :=
  ⟨by decide, by rfl, by rfl⟩

/-- C10 amended: a benchmark line whose command segment contains an *ASCII*
character outside `[A-Za-z0-9_]` (on ASCII, Python's Unicode `\w` is
exactly that class; a non-ASCII letter such as `é` is a word character and
such commands do match — see the counterexample), or whose params segment
(the ASCII, whitespace-free identifier portion between the second `/` and
the trailing `-<digits>` suffix) contains a hyphen, yields no regex match
at any position, so the extractor produces no record for it and the parse
result is empty without error.  (The hypothesis `honce` pins down that the
`Benchmark` literal occurs only at the start, which is what makes the
segments of the line well defined.) -/
theorem benchmark_line_skipped (tt cmd rest : List Char)
    (htt1 : tt ≠ []) (htt2 : ∀ c ∈ tt, wordChar c = true)
    (honce : ∀ s ∈ (benchLineOf tt cmd rest).tails,
      benchLit.isPrefixOf s = true → s = benchLineOf tt cmd rest)
    (hbad : ((∃ c ∈ cmd, c.toNat < 128 ∧ wordChar c = false) ∧ '/' ∉ cmd) ∨
      ((∀ c ∈ cmd, wordChar c = true) ∧ cmd ≠ [] ∧
        ∃ ps rest2, rest = ps ++ '-' :: rest2 ∧ '-' ∈ ps ∧
          ∀ c ∈ ps, c.toNat < 128 ∧ isPySpace c = false)) :
    findRecords (benchLineOf tt cmd rest) = [] ∧
    parse_benchmark_results (benchLineOf tt cmd rest) = Except.ok [] := by
  have hself : matchAt (benchLineOf tt cmd rest) = none := by
    rcases hbad with ⟨hex, hns⟩ | ⟨hcw, hcne, ps, rest2, hrest, hpsh, hpsw⟩
    · obtain ⟨c0, hc0m, _, hc0f⟩ := hex
      unfold benchLineOf matchAt
      rw [matchIdent_none_badcmd tt cmd rest htt1 htt2 ⟨c0, hc0m, hc0f⟩ hns]
      rfl
    · subst hrest
      by_cases hp1 : ps.takeWhile (fun c => c != '-') = []
      · cases hps0 : ps with
        | nil =>
          rw [hps0] at hpsh
          exact absurd hpsh (List.not_mem_nil _)
        | cons x xs =>
          have hx : (x != '-') = false := by
            by_cases hq : (x != '-') = true
            · rw [hps0, List.takeWhile_cons, if_pos hq] at hp1
              cases hp1
            · simpa using hq
          have hx2 : x = '-' := by
            simpa using hx
          subst hx2
          unfold benchLineOf matchAt
          rw [List.cons_append,
            matchIdent_none_hyphen_start tt cmd (xs ++ '-' :: rest2) htt1 htt2 hcne hcw]
          rfl
      · obtain ⟨d, dr, hd⟩ : ∃ d dr, ps.dropWhile (fun c => c != '-') = d :: dr := by
          cases hdw2 : ps.dropWhile (fun c => c != '-') with
          | nil =>
            rw [List.dropWhile_eq_nil_iff] at hdw2
            have := hdw2 '-' hpsh
            simp at this
          | cons d dr => exact ⟨d, dr, rfl⟩
        have hdh : d = '-' := by
          have := dropWhile_head_false ps d dr hd
          simpa using this
        have hps_split : ps = ps.takeWhile (fun c => c != '-') ++ '-' :: dr := by
          conv_lhs =>
            rw [← List.takeWhile_append_dropWhile (p := fun c => c != '-') (l := ps)]
          rw [hd, hdh]
        have hdr_sub : ∀ c ∈ dr, isPySpace c = false := by
          intro c hc
          refine (hpsw c ?_).2
          rw [hps_split]
          exact List.mem_append.mpr (Or.inr (List.mem_cons_of_mem _ hc))
        have hinput : ps ++ '-' :: rest2 =
            ps.takeWhile (fun c => c != '-') ++ '-' :: (dr ++ '-' :: rest2) := by
          conv_lhs => rw [hps_split]
          rw [List.append_assoc, List.cons_append]
        unfold benchLineOf matchAt
        rw [hinput, matchIdent_some tt cmd (ps.takeWhile (fun c => c != '-'))
          (dr ++ '-' :: rest2) htt1 htt2 hcne hcw hp1
          (fun x hx => @List.mem_takeWhile_imp Char (fun c => c != '-') ps x hx)]
        simp only [Option.some_bind]
        rw [matchNums_none_tail dr rest2 hdr_sub]
        rfl
  have hall : ∀ s ∈ (benchLineOf tt cmd rest).tails, matchAt s = none := by
    intro s hs
    by_cases hp : benchLit.isPrefixOf s = true
    · rw [honce s hs hp]
      exact hself
    · unfold matchAt matchIdent
      rw [litP_not_prefixOf benchLit s ((Bool.eq_false_iff).mpr hp)]
      rfl
  have hfind : findRecords (benchLineOf tt cmd rest) = [] :=
    findAux_eq_nil _ _ hall
  refine ⟨hfind, ?_⟩
  unfold parse_benchmark_results
  rw [hfind]
  rfl

/-- Witness for `benchmark_line_skipped` on a concrete line whose params
segment `small-file` contains a hyphen. -/
theorem benchmark_line_skipped_witness :
    findRecords "BenchmarkCat/cat/small-file-4  1000  500.0 ns/op  10.0 MB/sec".data
      = [] ∧
    parse_benchmark_results
      "BenchmarkCat/cat/small-file-4  1000  500.0 ns/op  10.0 MB/sec".data =
      Except.ok [] :=
  benchmark_line_skipped "Cat".data "cat".data
    "small-file-4  1000  500.0 ns/op  10.0 MB/sec".data
    (by decide) (by decide) (by decide)
    (Or.inr ⟨by decide, by decide, "small-file".data,
      "4  1000  500.0 ns/op  10.0 MB/sec".data, by decide, by decide, by decide⟩)

end DTail
